import Mathlib

/-!
Verification development for the sheet-stamp-die-maker core.

The embedding follows the two source files:
- src/neighbor_iterator.rs : the distance-sorted neighbor (offset) table;
- src/main.rs : argument validation, the negative-form distance field
  (closest_black_pixel, fade_fn) and the positive-form offset synthesis
  (compute_positive_form) with its assertions and early-termination break.

Rust f32 arithmetic is idealized over the reals; u16 samples are naturals
(bounded by 65535 where a claim needs the bound); a panic (assert!, the
radius assertion in Neighbors::new) is modelled as Option.none.
-/

/-- Integer offset coordinates, as in neighbor_iterator.rs (positive y down,
positive x right). -/
structure Coordinate where
  x : ℤ
  y : ℤ
  deriving DecidableEq, Repr

/-- Largest value of a 16-bit grayscale sample (u16::MAX). -/
def MAX_SAMPLE : ℕ := 65535

/-- The sentinel sample value marking a black (punch-through) pixel. -/
def BLACK : ℕ := 0

/-- The list of integers from a to b, inclusive on both ends (the Rust
range start..=end over i32). -/
def intRange (a b : ℤ) : List ℤ :=
  (List.range (b + 1 - a).toNat).map fun i : ℕ => a + (i : ℤ)

/-- Squared Euclidean norm x*x + y*y of an offset (the radicand at
neighbor_iterator.rs line 36). -/
def sqNorm (c : Coordinate) : ℤ := c.x * c.x + c.y * c.y

/-- Euclidean length of an offset: sqrt (x*x + y*y), the distance stored with
each neighbor entry (neighbor_iterator.rs line 36). -/
noncomputable def offsetDist (c : Coordinate) : ℝ := Real.sqrt ((sqNorm c : ℝ))

/-- Largest admissible x offset for row y: floor (sqrt (r^2 - y^2))
(end_x at neighbor_iterator.rs line 33). -/
noncomputable def rowHalfWidth (r : ℝ) (y : ℤ) : ℤ :=
  ⌊Real.sqrt (r ^ 2 - (y : ℝ) ^ 2)⌋

/-- Every offset enumerated by the double loop of Neighbors::new
(lines 30-44), in the loop's row-major insertion order: y runs over
-floor(r)..=floor(r) and, per row, x runs over -end_x..=end_x. -/
noncomputable def allOffsets (r : ℝ) : List Coordinate :=
  (intRange (-⌊r⌋) ⌊r⌋).flatMap fun y =>
    (intRange (-(rowHalfWidth r y)) (rowHalfWidth r y)).map fun x => Coordinate.mk x y

/-- Comparison by stored distance: the order of the BTreeMap keys in
Neighbors::new. -/
noncomputable def distLE (a b : Coordinate × ℝ) : Bool := decide (a.2 ≤ b.2)

/-- The offset table built by Neighbors::new: each enumerated offset paired
with its Euclidean distance, sorted ascending by distance. The BTreeMap keyed
by distance with per-key insertion-order buckets, flattened in ascending key
order (lines 25-48), is exactly a stable sort by distance. -/
noncomputable def neighborsList (r : ℝ) : List (Coordinate × ℝ) :=
  ((allOffsets r).map fun c => (c, offsetDist c)).mergeSort distLE

/-- Neighbors::new (neighbor_iterator.rs lines 21-50): the assert on a
non-negative radius (line 23) panics on a negative radius, modelled as none;
otherwise the sorted offset table is produced. -/
noncomputable def Neighbors.new (max_radius : ℝ) : Option (List (Coordinate × ℝ)) :=
  if 0 ≤ max_radius then some (neighborsList max_radius) else none

/-- A 16-bit grayscale image buffer (an ImageBuffer of Luma u16 in the
source): pixel x y is the sample at column x and row y. Only x < width and
y < height address real pixels; the u16 sample bound (every sample at most
MAX_SAMPLE) is carried as a hypothesis where a claim needs it. -/
structure Image where
  width : ℕ
  height : ℕ
  pixel : ℕ → ℕ → ℕ

/-- fade_fn of main.rs lines 276-282: a distance beyond the fade distance
returns u16::MAX at once; otherwise the raised-cosine ease curve, with the
f32-to-u16 cast modelled as the natural floor (the value lies in range). -/
noncomputable def fade_fn (distance_to_black_mm fade_distance_mm : ℝ) : ℕ :=
  if distance_to_black_mm > fade_distance_mm then MAX_SAMPLE
  else
    ⌊(Real.cos (distance_to_black_mm / fade_distance_mm * Real.pi + Real.pi) + 1) / 2
        * (MAX_SAMPLE : ℝ)⌋₊

/-- distance_mm of main.rs lines 270-274: Euclidean distance between two
pixel coordinates, in millimeters. -/
noncomputable def distance_mm (x1 y1 x2 y2 : ℕ) (pixels_per_mm : ℝ) : ℝ :=
  let dx := ((x1 : ℝ) - (x2 : ℝ)) / pixels_per_mm
  let dy := ((y1 : ℝ) - (y2 : ℝ)) / pixels_per_mm
  Real.sqrt (dx * dx + dy * dy)

/-- One probe of the window scan of closest_black_pixel (main.rs lines
246-266): a black pixel replaces the running minimum when strictly closer. -/
noncomputable def closestStep (image : Image) (cx cy : ℕ) (pixels_per_mm : ℝ)
    (closest : Option ℝ) (cell : ℕ × ℕ) : Option ℝ :=
  if image.pixel cell.1 cell.2 = BLACK then
    match closest with
    | some c =>
      if distance_mm cx cy cell.1 cell.2 pixels_per_mm < c then
        some (distance_mm cx cy cell.1 cell.2 pixels_per_mm)
      else some c
    | none => some (distance_mm cx cy cell.1 cell.2 pixels_per_mm)
  else closest

/-- The cells probed by closest_black_pixel, in row-major order: x runs from
cx - m (saturating at 0) up to but excluding min (cx + m) width, and likewise
y (main.rs lines 234-247; the Rust for-ranges are half-open at the top). -/
def windowCells (width height cx cy m : ℕ) : List (ℕ × ℕ) :=
  (List.range' (cy - m) (min (cy + m) height - (cy - m))).flatMap fun oy =>
    (List.range' (cx - m) (min (cx + m) width - (cx - m))).map fun ox => (ox, oy)

/-- closest_black_pixel of main.rs lines 228-268: scan the bounded window
around the coordinate and return the distance in mm to the nearest black
pixel inside it, none when the window holds no black pixel. -/
noncomputable def closest_black_pixel (image : Image) (cx cy : ℕ)
    (max_distance_mm pixels_per_mm : ℝ) : Option ℝ :=
  let max_distance_pixels := ⌊max_distance_mm * pixels_per_mm⌋₊
  (windowCells image.width image.height cx cy max_distance_pixels).foldl
    (closestStep image cx cy pixels_per_mm) none

/-- Per-pixel body of compute_negative_form (main.rs lines 129-142): the
input is read horizontally flipped; a coordinate with no black pixel in
range maps directly to u16::MAX with no call to fade_fn. -/
noncomputable def negative_form_pixel (input : Image)
    (fade_distance pixels_per_mm : ℝ) (output_x output_y : ℕ) : ℕ :=
  let input_x := input.width - 1 - output_x
  match closest_black_pixel input input_x output_y fade_distance pixels_per_mm with
  | some distance_to_black_mm => fade_fn distance_to_black_mm fade_distance
  | none => MAX_SAMPLE

/-- Row read in the negative form for an offset (main.rs line 171). -/
def negCoordY (positive_y : ℕ) (offset : Coordinate) : ℤ :=
  (positive_y : ℤ) + offset.y

/-- Column read in the negative form for an offset: the negative form is
horizontally flipped, so it is read right to left (main.rs line 174). -/
def negCoordX (width positive_x : ℕ) (offset : Coordinate) : ℤ :=
  (width : ℤ) - 1 - ((positive_x : ℤ) + offset.x)

/-- The skip condition of main.rs lines 176-182: the offset lands outside
the image. -/
def offsetOutOfBounds (width height positive_x positive_y : ℕ) (offset : Coordinate) : Prop :=
  negCoordY positive_y offset < 0 ∨ (height : ℤ) ≤ negCoordY positive_y offset
    ∨ negCoordX width positive_x offset < 0 ∨ (width : ℤ) ≤ negCoordX width positive_x offset

instance (width height positive_x positive_y : ℕ) (offset : Coordinate) :
    Decidable (offsetOutOfBounds width height positive_x positive_y offset) := by
  unfold offsetOutOfBounds
  infer_instance

/-- The missing right-triangle side of main.rs lines 191-195: the sheet
thickness is the hypotenuse, the xy distance the known side. The radicand is
not clamped in the source; Real.sqrt of a negative number is 0. -/
noncomputable def requiredZDiff (sheet_thickness xy_distance_mm : ℝ) : ℝ :=
  Real.sqrt (sheet_thickness * sheet_thickness - xy_distance_mm * xy_distance_mm)

/-- The required z of one in-bounds offset (main.rs lines 184-196): the
negative-form height converted to mm plus the right-triangle clearance, with
the stored pixel distance converted to mm first. -/
noncomputable def entryReq (neg : Image) (punch_out_depth sheet_thickness pixels_per_mm : ℝ)
    (positive_x positive_y : ℕ) (e : Coordinate × ℝ) : ℝ :=
  (neg.pixel (negCoordX neg.width positive_x e.1).toNat (negCoordY positive_y e.1).toNat : ℝ)
      / (MAX_SAMPLE : ℝ) * punch_out_depth
    + requiredZDiff sheet_thickness (e.2 / pixels_per_mm)

/-- The inner offset scan of compute_positive_form (main.rs lines 170-207):
out-of-image offsets are skipped, the required z bumps the accumulator up,
and the break of lines 201-206 stops the scan once the accumulator exceeds
punch_out_depth plus the current clearance. -/
noncomputable def scanZ (neg : Image) (punch_out_depth sheet_thickness pixels_per_mm : ℝ)
    (positive_x positive_y : ℕ) : List (Coordinate × ℝ) → ℝ → ℝ
  | [], z => z
  | e :: rest, z =>
    if offsetOutOfBounds neg.width neg.height positive_x positive_y e.1 then
      scanZ neg punch_out_depth sheet_thickness pixels_per_mm positive_x positive_y rest z
    else
      let required_z :=
        entryReq neg punch_out_depth sheet_thickness pixels_per_mm positive_x positive_y e
      let z1 := if required_z > z then required_z else z
      if z1 > punch_out_depth + requiredZDiff sheet_thickness (e.2 / pixels_per_mm) then z1
      else scanZ neg punch_out_depth sheet_thickness pixels_per_mm positive_x positive_y rest z1

/-- The same scan with the early-termination break omitted: the reference
computation against which claim C3 compares the break. -/
noncomputable def scanZFull (neg : Image) (punch_out_depth sheet_thickness pixels_per_mm : ℝ)
    (positive_x positive_y : ℕ) : List (Coordinate × ℝ) → ℝ → ℝ
  | [], z => z
  | e :: rest, z =>
    if offsetOutOfBounds neg.width neg.height positive_x positive_y e.1 then
      scanZFull neg punch_out_depth sheet_thickness pixels_per_mm positive_x positive_y rest z
    else
      let required_z :=
        entryReq neg punch_out_depth sheet_thickness pixels_per_mm positive_x positive_y e
      let z1 := if required_z > z then required_z else z
      scanZFull neg punch_out_depth sheet_thickness pixels_per_mm positive_x positive_y rest z1

/-- Per-pixel body of compute_positive_form (main.rs lines 168-213): run the
scan over the sheet-thickness offset table starting from 0, subtract the
sheet thickness, check the two assertions of lines 209-210 (their panic
modelled as none), and apply the channel-inverted linear map of lines
211-212 (the f32-to-u16 cast modelled as the natural floor). -/
noncomputable def positive_form_pixel (neg : Image)
    (punch_out_depth sheet_thickness pixels_per_mm : ℝ) (positive_x positive_y : ℕ) :
    Option ℕ :=
  let z := scanZ neg punch_out_depth sheet_thickness pixels_per_mm positive_x positive_y
      (neighborsList (sheet_thickness * pixels_per_mm)) 0 - sheet_thickness
  if 0 ≤ z ∧ z ≤ punch_out_depth then
    some (MAX_SAMPLE - ⌊z / punch_out_depth * (MAX_SAMPLE : ℝ)⌋₊)
  else none

/-- Variant of positive_form_pixel running the break-free scan: the
reference computation of claim C3. -/
noncomputable def positive_form_pixel_full (neg : Image)
    (punch_out_depth sheet_thickness pixels_per_mm : ℝ) (positive_x positive_y : ℕ) :
    Option ℕ :=
  let z := scanZFull neg punch_out_depth sheet_thickness pixels_per_mm positive_x positive_y
      (neighborsList (sheet_thickness * pixels_per_mm)) 0 - sheet_thickness
  if 0 ≤ z ∧ z ≤ punch_out_depth then
    some (MAX_SAMPLE - ⌊z / punch_out_depth * (MAX_SAMPLE : ℝ)⌋₊)
  else none

/-- Smallest positive normal f32 value, 2 to the power -126, exactly. -/
def f32_min_normal : ℚ := 1 / 2 ^ 126

/-- Largest finite f32 value, (2 - 2 to the -23) times 2 to the 127,
exactly. -/
def f32_max_finite : ℚ := (2 ^ 24 - 1) * 2 ^ 104

/-- Rust f32::is_normal restricted to (exactly representable) finite values:
true when the value is neither zero nor subnormal nor infinite nor NaN,
i.e. its magnitude lies between the smallest positive normal float and the
largest finite float. The sign is never inspected. -/
def is_normal (x : ℚ) : Bool :=
  decide (f32_min_normal ≤ |x|) && decide (|x| ≤ f32_max_finite)

/-- The numeric argument checks of parse_args (main.rs lines 42-67; the
input-path existence check is I/O and out of scope): each of the four
parameters has to pass is_normal, and nothing else is checked. -/
def parse_args_ok (punch_out_depth sheet_thickness fade_distance pixels_per_mm : ℚ) : Bool :=
  is_normal punch_out_depth && is_normal sheet_thickness
    && is_normal fade_distance && is_normal pixels_per_mm

/-- A 1 by 1 all-white image, used to instantiate proved theorems. -/
def whiteImage1 : Image where
  width := 1
  height := 1
  pixel := fun _ _ => MAX_SAMPLE

/-- A 2 by 1 image whose single black pixel sits at x = 1, used as the
concrete input refuting the symmetric-window reading of the search. -/
def edgeImage : Image where
  width := 2
  height := 1
  pixel := fun x _ => if x = 1 then BLACK else MAX_SAMPLE

lemma mem_intRange {a b x : ℤ} : x ∈ intRange a b ↔ a ≤ x ∧ x ≤ b := by
  simp only [intRange, List.mem_map, List.mem_range]
  constructor
  · rintro ⟨i, hi, rfl⟩
    omega
  · rintro ⟨h1, h2⟩
    exact ⟨(x - a).toNat, by omega, by omega⟩

lemma intRange_nodup (a b : ℤ) : (intRange a b).Nodup := by
  refine List.Nodup.map ?_ (List.nodup_range _)
  intro i j h
  dsimp only at h
  omega

lemma sqNorm_nonneg (c : Coordinate) : 0 ≤ sqNorm c :=
  add_nonneg (mul_self_nonneg c.x) (mul_self_nonneg c.y)

lemma offsetDist_nonneg (c : Coordinate) : 0 ≤ offsetDist c := Real.sqrt_nonneg _

lemma offsetDist_zero : offsetDist (Coordinate.mk 0 0) = 0 := by
  simp [offsetDist, sqNorm]

lemma mem_allOffsets {r : ℝ} (hr : 0 ≤ r) {c : Coordinate} :
    c ∈ allOffsets r ↔ (c.x : ℝ) ^ 2 + (c.y : ℝ) ^ 2 ≤ r ^ 2 := by
  constructor
  · intro hc
    simp only [allOffsets, List.mem_flatMap, List.mem_map, mem_intRange] at hc
    obtain ⟨y, ⟨hy1, hy2⟩, x, ⟨hx1, hx2⟩, rfl⟩ := hc
    have hyr : |(y : ℝ)| ≤ r := by
      exact_mod_cast (Int.le_floor).mp (abs_le.mpr ⟨hy1, hy2⟩)
    have hy2r : ((y : ℝ)) ^ 2 ≤ r ^ 2 := by
      nlinarith [abs_nonneg ((y : ℝ)), sq_abs ((y : ℝ))]
    have hxr : |(x : ℝ)| ≤ Real.sqrt (r ^ 2 - (y : ℝ) ^ 2) := by
      exact_mod_cast (Int.le_floor).mp (abs_le.mpr ⟨hx1, hx2⟩)
    have hx2r : ((x : ℝ)) ^ 2 ≤ r ^ 2 - (y : ℝ) ^ 2 := by
      rw [← sq_abs]
      exact (Real.le_sqrt (abs_nonneg _) (by linarith)).mp hxr
    show (x : ℝ) ^ 2 + (y : ℝ) ^ 2 ≤ r ^ 2
    linarith
  · intro hc
    simp only [allOffsets, List.mem_flatMap, List.mem_map, mem_intRange]
    refine ⟨c.y, ?_, c.x, ?_, rfl⟩
    · have h1 : |(c.y : ℝ)| ≤ r := by
        rw [← Real.sqrt_sq_eq_abs, ← Real.sqrt_sq hr]
        exact Real.sqrt_le_sqrt (by nlinarith [sq_nonneg ((c.x : ℝ))])
      have h2 : ((|c.y| : ℤ) : ℝ) ≤ r := by rw [Int.cast_abs]; exact h1
      exact abs_le.mp (Int.le_floor.mpr h2)
    · have h1 : |(c.x : ℝ)| ≤ Real.sqrt (r ^ 2 - (c.y : ℝ) ^ 2) := by
        rw [← Real.sqrt_sq_eq_abs]
        exact Real.sqrt_le_sqrt (by linarith)
      have h2 : ((|c.x| : ℤ) : ℝ) ≤ Real.sqrt (r ^ 2 - (c.y : ℝ) ^ 2) := by
        rw [Int.cast_abs]; exact h1
      exact abs_le.mp (Int.le_floor.mpr h2)

lemma allOffsets_nodup (r : ℝ) : (allOffsets r).Nodup := by
  unfold allOffsets
  rw [List.nodup_flatMap]
  constructor
  · intro y hy
    refine List.Nodup.map ?_ (intRange_nodup _ _)
    intro a b hab
    exact congrArg Coordinate.x hab
  · refine List.Pairwise.imp ?_ (intRange_nodup (-⌊r⌋) ⌊r⌋)
    intro y1 y2 hne
    intro p hp1 hp2
    simp only [List.mem_map] at hp1 hp2
    obtain ⟨x1, _, rfl⟩ := hp1
    obtain ⟨x2, _, heq⟩ := hp2
    exact hne (congrArg Coordinate.y heq).symm

lemma neighborsList_perm (r : ℝ) :
    List.Perm (neighborsList r) ((allOffsets r).map fun c => (c, offsetDist c)) :=
  List.mergeSort_perm _ _

lemma mem_neighborsList {r : ℝ} (hr : 0 ≤ r) {c : Coordinate} {d : ℝ} :
    (c, d) ∈ neighborsList r ↔
      ((c.x : ℝ) ^ 2 + (c.y : ℝ) ^ 2 ≤ r ^ 2 ∧ d = offsetDist c) := by
  rw [(neighborsList_perm r).mem_iff]
  simp only [List.mem_map, Prod.mk.injEq]
  constructor
  · rintro ⟨c0, hc0, rfl, rfl⟩
    exact ⟨(mem_allOffsets hr).mp hc0, rfl⟩
  · rintro ⟨h, rfl⟩
    exact ⟨c, (mem_allOffsets hr).mpr h, rfl, rfl⟩

lemma neighborsList_sorted (r : ℝ) :
    (neighborsList r).Pairwise fun a b => a.2 ≤ b.2 := by
  have h : (neighborsList r).Pairwise fun a b => distLE a b = true := by
    refine List.sorted_mergeSort ?_ ?_ _
    · intro a b c hab hbc
      simp only [distLE, decide_eq_true_eq] at hab hbc ⊢
      exact le_trans hab hbc
    · intro a b
      simp only [distLE, Bool.or_eq_true, decide_eq_true_eq]
      exact le_total a.2 b.2
  refine h.imp ?_
  intro a b hab
  simpa only [distLE, decide_eq_true_eq] using hab

lemma neighborsList_map_fst_nodup (r : ℝ) : ((neighborsList r).map Prod.fst).Nodup := by
  have hperm := (neighborsList_perm r).map Prod.fst
  rw [hperm.nodup_iff, List.map_map]
  have : (Prod.fst ∘ fun c : Coordinate => (c, offsetDist c)) = fun c => c := rfl
  rw [this]
  simpa using allOffsets_nodup r

lemma zero_mem_neighborsList {r : ℝ} (hr : 0 ≤ r) :
    (Coordinate.mk 0 0, (0 : ℝ)) ∈ neighborsList r := by
  rw [mem_neighborsList hr]
  refine ⟨?_, offsetDist_zero.symm⟩
  show ((0 : ℤ) : ℝ) ^ 2 + ((0 : ℤ) : ℝ) ^ 2 ≤ r ^ 2
  norm_num
  positivity

lemma neighborsList_head {r : ℝ} (hr : 0 ≤ r) :
    ∃ rest, neighborsList r = (Coordinate.mk 0 0, (0 : ℝ)) :: rest := by
  have hmem := zero_mem_neighborsList hr
  cases hne : neighborsList r with
  | nil => rw [hne] at hmem; simp at hmem
  | cons e rest =>
    refine ⟨rest, ?_⟩
    rw [hne] at hmem
    rcases List.mem_cons.mp hmem with heq | hmem0
    · rw [← heq]
    · have hsorted := neighborsList_sorted r
      rw [hne] at hsorted
      have hle : e.2 ≤ 0 := (List.pairwise_cons.mp hsorted).1 _ hmem0
      have he : (e.1, e.2) ∈ neighborsList r := by
        rw [hne]
        exact List.mem_cons_self _ _
      obtain ⟨-, hd⟩ := (mem_neighborsList hr).mp he
      have hd0 : offsetDist e.1 = 0 := le_antisymm (hd ▸ hle) (offsetDist_nonneg _)
      have hsq : (sqNorm e.1 : ℝ) ≤ 0 := Real.sqrt_eq_zero'.mp hd0
      have hsq0 : sqNorm e.1 = 0 := by
        have := sqNorm_nonneg e.1
        exact_mod_cast le_antisymm (by exact_mod_cast hsq) this
      have hx : e.1.x = 0 := by
        have hx2 := mul_self_nonneg e.1.x
        have hy2 := mul_self_nonneg e.1.y
        have : e.1.x * e.1.x = 0 := by
          simp only [sqNorm] at hsq0
          omega
        exact mul_self_eq_zero.mp this
      have hy : e.1.y = 0 := by
        have : e.1.y * e.1.y = 0 := by
          simp only [sqNorm] at hsq0
          have hx2 := mul_self_nonneg e.1.x
          have hy2 := mul_self_nonneg e.1.y
          omega
        exact mul_self_eq_zero.mp this
      have hc : e = (Coordinate.mk 0 0, (0 : ℝ)) := by
        obtain ⟨⟨cx, cy⟩, dd⟩ := e
        simp only at hx hy hd
        subst hx
        subst hy
        simp [hd, offsetDist_zero]
      rw [hc]

lemma intRange_self (a : ℤ) : intRange a a = [a] := by
  unfold intRange
  norm_num
  rw [show (1 : ℕ) = 0 + 1 by rfl, List.range_succ]
  simp

lemma rowHalfWidth_zero : rowHalfWidth 0 0 = 0 := by
  unfold rowHalfWidth
  norm_num

lemma allOffsets_zero : allOffsets 0 = [Coordinate.mk 0 0] := by
  unfold allOffsets
  rw [Int.floor_zero]
  rw [show -(0 : ℤ) = 0 by ring, intRange_self]
  simp [rowHalfWidth_zero, intRange_self]

lemma neighborsList_zero : neighborsList 0 = [(Coordinate.mk 0 0, (0 : ℝ))] := by
  have hperm := neighborsList_perm 0
  rw [allOffsets_zero] at hperm
  simp only [List.map_cons, List.map_nil, offsetDist_zero] at hperm
  exact List.perm_singleton.mp hperm

lemma neighborsList_dist_eq {r : ℝ} (hr : 0 ≤ r) {e : Coordinate × ℝ}
    (he : e ∈ neighborsList r) : e.2 = offsetDist e.1 := by
  have : (e.1, e.2) ∈ neighborsList r := by rwa [Prod.mk.eta]
  exact ((mem_neighborsList hr).mp this).2

lemma neighborsList_dist_nonneg {r : ℝ} (hr : 0 ≤ r) {e : Coordinate × ℝ}
    (he : e ∈ neighborsList r) : 0 ≤ e.2 := by
  rw [neighborsList_dist_eq hr he]
  exact offsetDist_nonneg _

lemma neighborsList_dist_le {r : ℝ} (hr : 0 ≤ r) {e : Coordinate × ℝ}
    (he : e ∈ neighborsList r) : e.2 ≤ r := by
  have hpair : (e.1, e.2) ∈ neighborsList r := by rwa [Prod.mk.eta]
  obtain ⟨hsq, hd⟩ := (mem_neighborsList hr).mp hpair
  rw [hd, offsetDist]
  have hcast : ((sqNorm e.1 : ℤ) : ℝ) = (e.1.x : ℝ) ^ 2 + (e.1.y : ℝ) ^ 2 := by
    simp only [sqNorm]
    push_cast
    ring
  rw [hcast, ← Real.sqrt_sq hr]
  exact Real.sqrt_le_sqrt hsq

lemma requiredZDiff_nonneg (t xy : ℝ) : 0 ≤ requiredZDiff t xy := Real.sqrt_nonneg _

lemma requiredZDiff_le (t xy : ℝ) (ht : 0 ≤ t) : requiredZDiff t xy ≤ t := by
  unfold requiredZDiff
  calc Real.sqrt (t * t - xy * xy) ≤ Real.sqrt (t * t) :=
        Real.sqrt_le_sqrt (sub_le_self _ (mul_self_nonneg _))
    _ = t := Real.sqrt_mul_self ht

lemma requiredZDiff_antitone (t : ℝ) {a b : ℝ} (ha : 0 ≤ a) (hab : a ≤ b) :
    requiredZDiff t b ≤ requiredZDiff t a := by
  unfold requiredZDiff
  refine Real.sqrt_le_sqrt ?_
  have := mul_self_le_mul_self ha hab
  linarith

lemma entryReq_le {N : Image} {d : ℝ} (t p : ℝ) (px py : ℕ)
    (hpix : ∀ x y, N.pixel x y ≤ MAX_SAMPLE) (hdep : 0 ≤ d) (e : Coordinate × ℝ) :
    entryReq N d t p px py e ≤ d + requiredZDiff t (e.2 / p) := by
  unfold entryReq
  have hb : (N.pixel (negCoordX N.width px e.1).toNat (negCoordY py e.1).toNat : ℝ)
      / (MAX_SAMPLE : ℝ) ≤ 1 := by
    rw [div_le_one (by norm_num [MAX_SAMPLE])]
    exact_mod_cast hpix _ _
  have h0 : (0 : ℝ) ≤ (N.pixel (negCoordX N.width px e.1).toNat (negCoordY py e.1).toNat : ℝ)
      / (MAX_SAMPLE : ℝ) := by positivity
  nlinarith

lemma entryReq_nonneg {N : Image} {d : ℝ} (t p : ℝ) (px py : ℕ) (hdep : 0 ≤ d)
    (e : Coordinate × ℝ) : 0 ≤ entryReq N d t p px py e := by
  unfold entryReq
  have h0 : (0 : ℝ) ≤ (N.pixel (negCoordX N.width px e.1).toNat (negCoordY py e.1).toNat : ℝ)
      / (MAX_SAMPLE : ℝ) := by positivity
  have := requiredZDiff_nonneg t (e.2 / p)
  nlinarith

lemma scanZ_cons (N : Image) (d t p : ℝ) (px py : ℕ) (e : Coordinate × ℝ)
    (rest : List (Coordinate × ℝ)) (z : ℝ) :
    scanZ N d t p px py (e :: rest) z =
      if offsetOutOfBounds N.width N.height px py e.1 then scanZ N d t p px py rest z
      else
        if (if entryReq N d t p px py e > z then entryReq N d t p px py e else z) >
            d + requiredZDiff t (e.2 / p) then
          (if entryReq N d t p px py e > z then entryReq N d t p px py e else z)
        else
          scanZ N d t p px py rest
            (if entryReq N d t p px py e > z then entryReq N d t p px py e else z) := rfl

lemma scanZFull_cons (N : Image) (d t p : ℝ) (px py : ℕ) (e : Coordinate × ℝ)
    (rest : List (Coordinate × ℝ)) (z : ℝ) :
    scanZFull N d t p px py (e :: rest) z =
      if offsetOutOfBounds N.width N.height px py e.1 then scanZFull N d t p px py rest z
      else
        scanZFull N d t p px py rest
          (if entryReq N d t p px py e > z then entryReq N d t p px py e else z) := rfl

lemma le_scanZ (N : Image) (d t p : ℝ) (px py : ℕ) (l : List (Coordinate × ℝ)) :
    ∀ z : ℝ, z ≤ scanZ N d t p px py l z := by
  induction l with
  | nil => intro z; exact le_of_eq rfl
  | cons e rest ih =>
    intro z
    rw [scanZ_cons]
    split
    · exact ih z
    · set z1 := if entryReq N d t p px py e > z then entryReq N d t p px py e else z with hz1def
      have hz1 : z ≤ z1 := by
        rw [hz1def]
        split
        · linarith [le_of_lt (by assumption : entryReq N d t p px py e > z)]
        · exact le_refl z
      split
      · exact hz1
      · exact le_trans hz1 (ih z1)

lemma scanZ_le (N : Image) (d t p : ℝ) (px py : ℕ) {B : ℝ} (l : List (Coordinate × ℝ)) :
    ∀ z : ℝ, (∀ e ∈ l, entryReq N d t p px py e ≤ B) → z ≤ B →
      scanZ N d t p px py l z ≤ B := by
  induction l with
  | nil => intro z _ hz; exact hz
  | cons e rest ih =>
    intro z hB hz
    rw [scanZ_cons]
    split
    · exact ih z (fun e1 he1 => hB e1 (List.mem_cons_of_mem _ he1)) hz
    · set z1 := if entryReq N d t p px py e > z then entryReq N d t p px py e else z with hz1def
      have hz1 : z1 ≤ B := by
        rw [hz1def]
        split
        · exact hB e (List.mem_cons_self _ _)
        · exact hz
      split
      · exact hz1
      · exact ih z1 (fun e1 he1 => hB e1 (List.mem_cons_of_mem _ he1)) hz1

lemma scanZ_cons_ge (N : Image) (d t p : ℝ) (px py : ℕ) (e : Coordinate × ℝ)
    (rest : List (Coordinate × ℝ)) (z : ℝ)
    (h : ¬ offsetOutOfBounds N.width N.height px py e.1) :
    entryReq N d t p px py e ≤ scanZ N d t p px py (e :: rest) z := by
  rw [scanZ_cons, if_neg h]
  set z1 := if entryReq N d t p px py e > z then entryReq N d t p px py e else z with hz1def
  have hz1 : entryReq N d t p px py e ≤ z1 := by
    rw [hz1def]
    split
    · exact le_refl _
    · exact le_of_not_lt (by assumption)
  split
  · exact hz1
  · exact le_trans hz1 (le_scanZ N d t p px py rest z1)

lemma scanZFull_eq_self (N : Image) (d t p : ℝ) (px py : ℕ) (l : List (Coordinate × ℝ)) :
    ∀ z : ℝ, (∀ e ∈ l, entryReq N d t p px py e ≤ z) → scanZFull N d t p px py l z = z := by
  induction l with
  | nil => intro z _; rfl
  | cons e rest ih =>
    intro z hB
    rw [scanZFull_cons]
    have hz1 : (if entryReq N d t p px py e > z then entryReq N d t p px py e else z) = z := by
      rw [if_neg (not_lt.mpr (hB e (List.mem_cons_self _ _)))]
    split
    · exact ih z fun e1 he1 => hB e1 (List.mem_cons_of_mem _ he1)
    · rw [hz1]
      exact ih z fun e1 he1 => hB e1 (List.mem_cons_of_mem _ he1)

lemma scanZ_eq_scanZFull (N : Image) (d t p : ℝ) (px py : ℕ)
    (hpix : ∀ x y, N.pixel x y ≤ MAX_SAMPLE) (hdep : 0 ≤ d) (hppm : 0 < p)
    (l : List (Coordinate × ℝ)) :
    ∀ z : ℝ, l.Pairwise (fun a b => a.2 ≤ b.2) → (∀ e ∈ l, 0 ≤ e.2) →
      scanZ N d t p px py l z = scanZFull N d t p px py l z := by
  induction l with
  | nil => intro z _ _; rfl
  | cons e rest ih =>
    intro z hsort hd0
    have hsort1 := (List.pairwise_cons.mp hsort).2
    have hhead := (List.pairwise_cons.mp hsort).1
    have hd0r : ∀ e1 ∈ rest, 0 ≤ e1.2 := fun e1 he1 => hd0 e1 (List.mem_cons_of_mem _ he1)
    rw [scanZ_cons, scanZFull_cons]
    split
    · exact ih z hsort1 hd0r
    · set z1 := if entryReq N d t p px py e > z then entryReq N d t p px py e else z with hz1def
      split
      · -- the break fired: no later entry can raise z1
        have hbreak : z1 > d + requiredZDiff t (e.2 / p) := by assumption
        refine (scanZFull_eq_self N d t p px py rest z1 ?_).symm
        intro e1 he1
        have hle : e.2 ≤ e1.2 := hhead e1 he1
        have hxy : e.2 / p ≤ e1.2 / p := by gcongr
        have hdiff : requiredZDiff t (e1.2 / p) ≤ requiredZDiff t (e.2 / p) :=
          requiredZDiff_antitone t
            (div_nonneg (hd0 e (List.mem_cons_self _ _)) (le_of_lt hppm)) hxy
        have := entryReq_le t p px py hpix hdep e1
        linarith
      · exact ih z1 hsort1 hd0r

lemma zero_offset_inBounds {w h px py : ℕ} (hx : px < w) (hy : py < h) :
    ¬ offsetOutOfBounds w h px py (Coordinate.mk 0 0) := by
  unfold offsetOutOfBounds negCoordX negCoordY
  dsimp only
  omega

lemma entryReq_zero_offset (N : Image) (d t p : ℝ) (px py : ℕ)
    (hdep : 0 ≤ d) (ht : 0 ≤ t) :
    t ≤ entryReq N d t p px py (Coordinate.mk 0 0, 0) := by
  unfold entryReq
  have hdiff : requiredZDiff t ((Coordinate.mk 0 0, (0 : ℝ)).2 / p) = t := by
    show Real.sqrt (t * t - 0 / p * (0 / p)) = t
    rw [zero_div]
    norm_num [Real.sqrt_mul_self ht]
  rw [hdiff]
  have h0 : (0 : ℝ) ≤ (N.pixel (negCoordX N.width px (Coordinate.mk 0 0)).toNat
      (negCoordY py (Coordinate.mk 0 0)).toNat : ℝ) / (MAX_SAMPLE : ℝ) * d := by positivity
  linarith

lemma scan_bounds (N : Image) (d t p : ℝ) (px py : ℕ)
    (hpix : ∀ x y, N.pixel x y ≤ MAX_SAMPLE) (hdep : 0 ≤ d) (ht : 0 ≤ t) (hp : 0 < p)
    (hx : px < N.width) (hy : py < N.height) :
    t ≤ scanZ N d t p px py (neighborsList (t * p)) 0 ∧
      scanZ N d t p px py (neighborsList (t * p)) 0 ≤ d + t := by
  have hr : 0 ≤ t * p := mul_nonneg ht (le_of_lt hp)
  constructor
  · obtain ⟨rest, hL⟩ := neighborsList_head hr
    rw [hL]
    refine le_trans (entryReq_zero_offset N d t p px py hdep ht) ?_
    exact scanZ_cons_ge N d t p px py _ rest 0 (zero_offset_inBounds hx hy)
  · refine scanZ_le N d t p px py _ 0 ?_ (by linarith)
    intro e he
    have h1 := entryReq_le t p px py hpix hdep e
    have h2 := requiredZDiff_le t (e.2 / p) ht
    linarith

/-- C1: for every negative-form grid (u16 samples) and positive finite
parameters, the per-pixel height z of compute_positive_form, after
subtracting the sheet thickness, lies in the closed interval from 0 to the
punch-out depth at every pixel, so the two assertions of main.rs lines
209-210 never fire and the pixel value is produced (some, never the
panic/none branch, never a clamped value). -/
theorem C1_positive_form_invariant (N : Image) (d t p : ℝ) (px py : ℕ)
    (hd : 0 < d) (ht : 0 < t) (hp : 0 < p) (hx : px < N.width) (hy : py < N.height)
    (hpix : ∀ x y, N.pixel x y ≤ MAX_SAMPLE) :
    0 ≤ scanZ N d t p px py (neighborsList (t * p)) 0 - t ∧
      scanZ N d t p px py (neighborsList (t * p)) 0 - t ≤ d ∧
      positive_form_pixel N d t p px py =
        some (MAX_SAMPLE - ⌊(scanZ N d t p px py (neighborsList (t * p)) 0 - t) / d
            * (MAX_SAMPLE : ℝ)⌋₊) := by
  obtain ⟨h1, h2⟩ := scan_bounds N d t p px py hpix (le_of_lt hd) (le_of_lt ht) hp hx hy
  refine ⟨by linarith, by linarith, ?_⟩
  unfold positive_form_pixel
  rw [if_pos ⟨by linarith, by linarith⟩]

/-- Witness for C1 at a concrete input: the 1 by 1 all-white image with all
parameters 1. -/
theorem C1_positive_form_invariant_witness :
    0 ≤ scanZ whiteImage1 1 1 1 0 0 (neighborsList (1 * 1)) 0 - 1 ∧
      scanZ whiteImage1 1 1 1 0 0 (neighborsList (1 * 1)) 0 - 1 ≤ 1 ∧
      positive_form_pixel whiteImage1 1 1 1 0 0 =
        some (MAX_SAMPLE - ⌊(scanZ whiteImage1 1 1 1 0 0 (neighborsList (1 * 1)) 0 - 1) / 1
            * (MAX_SAMPLE : ℝ)⌋₊) :=
  C1_positive_form_invariant whiteImage1 1 1 1 0 0 (by norm_num) (by norm_num) (by norm_num)
    (by norm_num [whiteImage1]) (by norm_num [whiteImage1]) (fun _ _ => le_refl _)

/-- C10: for every pixel the final positive-form sample is channel-inverted,
namely u16::MAX minus the truncation of (z / punch_out_depth) * u16::MAX; in
particular z = 0 gives the sample u16::MAX (full white) and z equal to the
punch-out depth gives the sample 0. -/
theorem C10_channel_inverted_sample (N : Image) (d t p : ℝ) (px py : ℕ)
    (hd : 0 < d) (ht : 0 < t) (hp : 0 < p) (hx : px < N.width) (hy : py < N.height)
    (hpix : ∀ x y, N.pixel x y ≤ MAX_SAMPLE) :
    positive_form_pixel N d t p px py =
        some (MAX_SAMPLE - ⌊(scanZ N d t p px py (neighborsList (t * p)) 0 - t) / d
            * (MAX_SAMPLE : ℝ)⌋₊) ∧
      (scanZ N d t p px py (neighborsList (t * p)) 0 - t = 0 →
        positive_form_pixel N d t p px py = some MAX_SAMPLE) ∧
      (scanZ N d t p px py (neighborsList (t * p)) 0 - t = d →
        positive_form_pixel N d t p px py = some 0) := by
  obtain ⟨h1, h2⟩ := scan_bounds N d t p px py hpix (le_of_lt hd) (le_of_lt ht) hp hx hy
  have hmain : positive_form_pixel N d t p px py =
      some (MAX_SAMPLE - ⌊(scanZ N d t p px py (neighborsList (t * p)) 0 - t) / d
          * (MAX_SAMPLE : ℝ)⌋₊) := by
    unfold positive_form_pixel
    rw [if_pos ⟨by linarith, by linarith⟩]
  refine ⟨hmain, ?_, ?_⟩
  · intro h0
    rw [hmain, h0]
    norm_num
  · intro hdep
    rw [hmain, hdep]
    rw [div_self (ne_of_gt hd)]
    norm_num

/-- Witness for C10 at a concrete input: the 1 by 1 all-white image with all
parameters 1. -/
theorem C10_channel_inverted_sample_witness :
    positive_form_pixel whiteImage1 1 1 1 0 0 =
        some (MAX_SAMPLE - ⌊(scanZ whiteImage1 1 1 1 0 0 (neighborsList (1 * 1)) 0 - 1) / 1
            * (MAX_SAMPLE : ℝ)⌋₊) ∧
      (scanZ whiteImage1 1 1 1 0 0 (neighborsList (1 * 1)) 0 - 1 = 0 →
        positive_form_pixel whiteImage1 1 1 1 0 0 = some MAX_SAMPLE) ∧
      (scanZ whiteImage1 1 1 1 0 0 (neighborsList (1 * 1)) 0 - 1 = 1 →
        positive_form_pixel whiteImage1 1 1 1 0 0 = some 0) :=
  C10_channel_inverted_sample whiteImage1 1 1 1 0 0 (by norm_num) (by norm_num) (by norm_num)
    (by norm_num [whiteImage1]) (by norm_num [whiteImage1]) (fun _ _ => le_refl _)

/-- C3: for every negative-form grid and positive finite parameters, the
scan with the early-termination break of main.rs lines 201-206 computes, at
every pixel, exactly the same accumulated height and hence the same final
sample as the same scan with the break omitted. -/
theorem C3_break_is_pure_optimization (N : Image) (d t p : ℝ) (px py : ℕ)
    (hd : 0 < d) (ht : 0 < t) (hp : 0 < p)
    (hpix : ∀ x y, N.pixel x y ≤ MAX_SAMPLE) :
    scanZ N d t p px py (neighborsList (t * p)) 0 =
        scanZFull N d t p px py (neighborsList (t * p)) 0 ∧
      positive_form_pixel N d t p px py = positive_form_pixel_full N d t p px py := by
  have hr : 0 ≤ t * p := by positivity
  have h := scanZ_eq_scanZFull N d t p px py hpix (le_of_lt hd) hp
      (neighborsList (t * p)) 0 (neighborsList_sorted _)
      (fun e he => neighborsList_dist_nonneg hr he)
  refine ⟨h, ?_⟩
  unfold positive_form_pixel positive_form_pixel_full
  rw [h]

/-- Witness for C3 at a concrete input: the 1 by 1 all-white image with all
parameters 1. -/
theorem C3_break_is_pure_optimization_witness :
    scanZ whiteImage1 1 1 1 0 0 (neighborsList (1 * 1)) 0 =
        scanZFull whiteImage1 1 1 1 0 0 (neighborsList (1 * 1)) 0 ∧
      positive_form_pixel whiteImage1 1 1 1 0 0 = positive_form_pixel_full whiteImage1 1 1 1 0 0 :=
  C3_break_is_pure_optimization whiteImage1 1 1 1 0 0 (by norm_num) (by norm_num) (by norm_num)
    (fun _ _ => le_refl _)

lemma sqNorm_castReal (c : Coordinate) :
    ((sqNorm c : ℤ) : ℝ) = (c.x : ℝ) ^ 2 + (c.y : ℝ) ^ 2 := by
  simp only [sqNorm]
  push_cast
  ring

/-- C2: for every radius r ≥ 0 the sequence built by Neighbors::new contains
exactly the integer offsets (dx, dy) with dx² + dy² ≤ r² (boundary points at
distance exactly r included), each appearing exactly once and paired with
its Euclidean distance; the sequence is non-decreasing in distance; and
radius 0 yields exactly the single entry ((0,0), 0). -/
theorem C2_neighbor_enumerator_contract (r : ℝ) (hr : 0 ≤ r) :
    (∀ (c : Coordinate) (dist : ℝ),
        ((c, dist) ∈ neighborsList r ↔
          ((c.x : ℝ) ^ 2 + (c.y : ℝ) ^ 2 ≤ r ^ 2 ∧
            dist = Real.sqrt ((c.x : ℝ) ^ 2 + (c.y : ℝ) ^ 2)))) ∧
      ((neighborsList r).map Prod.fst).Nodup ∧
      (neighborsList r).Pairwise (fun a b => a.2 ≤ b.2) ∧
      (r = 0 → neighborsList r = [(Coordinate.mk 0 0, 0)]) := by
  refine ⟨?_, neighborsList_map_fst_nodup r, neighborsList_sorted r, ?_⟩
  · intro c dist
    rw [mem_neighborsList hr]
    unfold offsetDist
    rw [sqNorm_castReal]
  · intro h0
    rw [h0]
    exact neighborsList_zero

/-- Witness for C2 at the concrete radius 0. -/
theorem C2_neighbor_enumerator_contract_witness :
    (∀ (c : Coordinate) (dist : ℝ),
        ((c, dist) ∈ neighborsList 0 ↔
          ((c.x : ℝ) ^ 2 + (c.y : ℝ) ^ 2 ≤ (0 : ℝ) ^ 2 ∧
            dist = Real.sqrt ((c.x : ℝ) ^ 2 + (c.y : ℝ) ^ 2)))) ∧
      ((neighborsList 0).map Prod.fst).Nodup ∧
      (neighborsList 0).Pairwise (fun a b => a.2 ≤ b.2) ∧
      ((0 : ℝ) = 0 → neighborsList 0 = [(Coordinate.mk 0 0, 0)]) :=
  C2_neighbor_enumerator_contract 0 (le_refl 0)

/-- C9: calling Neighbors::new with a negative radius fails the assertion of
neighbor_iterator.rs line 23 and panics (modelled as none) with no
recoverable error path; for every radius ≥ 0 the call succeeds and its table
starts with the zero offset at distance 0. -/
theorem C9_negative_radius_is_fatal (r : ℝ) :
    (Neighbors.new r = none ↔ r < 0) ∧
      (0 ≤ r → ∃ rest, Neighbors.new r = some ((Coordinate.mk 0 0, (0 : ℝ)) :: rest)) := by
  constructor
  · unfold Neighbors.new
    split
    · simpa using not_lt.mpr (by assumption)
    · simpa using lt_of_not_le (by assumption)
  · intro hr
    obtain ⟨rest, h⟩ := neighborsList_head hr
    refine ⟨rest, ?_⟩
    unfold Neighbors.new
    rw [if_pos hr, h]

/-- C6: fade_fn is a pure total function with fade 0 f = 0,
fade f f = MAX_SAMPLE, fade d f = MAX_SAMPLE for every d > f, and fade
monotonically non-decreasing in the distance on the interval from 0 to f,
for every positive fade distance f. -/
theorem C6_fade_contract (f : ℝ) (hf : 0 < f) :
    fade_fn 0 f = 0 ∧ fade_fn f f = MAX_SAMPLE ∧
      (∀ d1 : ℝ, f < d1 → fade_fn d1 f = MAX_SAMPLE) ∧
      (∀ d1 d2 : ℝ, 0 ≤ d1 → d1 ≤ d2 → d2 ≤ f → fade_fn d1 f ≤ fade_fn d2 f) := by
  refine ⟨?_, ?_, ?_, ?_⟩
  · rw [fade_fn, if_neg (not_lt.mpr (le_of_lt hf))]
    rw [zero_div, zero_mul, zero_add, Real.cos_pi]
    norm_num
  · rw [fade_fn, if_neg (lt_irrefl f)]
    rw [div_self (ne_of_gt hf), one_mul]
    rw [show Real.pi + Real.pi = 2 * Real.pi by ring, Real.cos_two_pi]
    norm_num
  · intro d1 h1
    rw [fade_fn, if_pos h1]
  · intro d1 d2 h0 h12 h2f
    rw [fade_fn, fade_fn, if_neg (not_lt.mpr (le_trans h12 h2f)), if_neg (not_lt.mpr h2f)]
    refine Nat.floor_le_floor ?_
    have hpi := Real.pi_pos
    have hc : Real.cos (d1 / f * Real.pi + Real.pi) ≤ Real.cos (d2 / f * Real.pi + Real.pi) := by
      rw [Real.cos_add_pi, Real.cos_add_pi]
      have ha1 : (0 : ℝ) ≤ d1 / f * Real.pi := by positivity
      have ha12 : d1 / f * Real.pi ≤ d2 / f * Real.pi := by
        have : d1 / f ≤ d2 / f := by gcongr
        nlinarith
      have ha2 : d2 / f * Real.pi ≤ Real.pi := by
        have h1' : d2 / f ≤ 1 := (div_le_one hf).mpr h2f
        exact mul_le_of_le_one_left (le_of_lt hpi) h1'
      have := Real.cos_le_cos_of_nonneg_of_le_pi ha1 ha2 ha12
      linarith
    have hM : (0 : ℝ) ≤ (MAX_SAMPLE : ℝ) := by positivity
    nlinarith

/-- Witness for C6 at the concrete fade distance 1. -/
theorem C6_fade_contract_witness :
    fade_fn 0 1 = 0 ∧ fade_fn 1 1 = MAX_SAMPLE ∧
      (∀ d1 : ℝ, 1 < d1 → fade_fn d1 1 = MAX_SAMPLE) ∧
      (∀ d1 d2 : ℝ, 0 ≤ d1 → d1 ≤ d2 → d2 ≤ 1 → fade_fn d1 1 ≤ fade_fn d2 1) :=
  C6_fade_contract 1 (by norm_num)

/-- C8: when closest_black_pixel finds no black pixel in the search window
for an output coordinate, compute_negative_form writes u16::MAX directly,
without evaluating the fade function; the case is handled as ordinary data,
not as an error. -/
theorem C8_no_black_pixel_gives_max (input : Image) (fade_distance pixels_per_mm : ℝ)
    (output_x output_y : ℕ)
    (h : closest_black_pixel input (input.width - 1 - output_x) output_y
        fade_distance pixels_per_mm = none) :
    negative_form_pixel input fade_distance pixels_per_mm output_x output_y = MAX_SAMPLE := by
  simp only [negative_form_pixel, h]

/-- Witness for C8 at a concrete input: the 1 by 1 all-white image, whose
window holds no black pixel. -/
theorem C8_no_black_pixel_gives_max_witness :
    closest_black_pixel whiteImage1 (whiteImage1.width - 1 - 0) 0 1 1 = none ∧
      negative_form_pixel whiteImage1 1 1 0 0 = MAX_SAMPLE := by
  have heval : closest_black_pixel whiteImage1 (whiteImage1.width - 1 - 0) 0 1 1 = none := by
    norm_num [closest_black_pixel, windowCells, closestStep, whiteImage1,
      List.range'_one, MAX_SAMPLE, BLACK]
  exact ⟨heval, C8_no_black_pixel_gives_max whiteImage1 1 1 0 0 heval⟩

/-- C7 is a code bug: parse_args (main.rs lines 42-67) validates the four
numeric arguments with f32::is_normal, which is true for negative normal
values, so a negative punch depth, sheet thickness, fade distance and
pixels-per-mm all pass validation and the program proceeds to compute,
although the code's own error messages demand positive values and the claim
requires rejection. -/
theorem C7_parse_args_accepts_negative_values :
    parse_args_ok (-1) (-1) (-1) (-1) = true ∧ parse_args_ok 0 1 1 1 = false := by
  constructor
  · simp only [parse_args_ok, is_normal, f32_min_normal, f32_max_finite,
      Bool.and_eq_true, decide_eq_true_eq, abs_neg, abs_one]
    norm_num
  · have h0 : ¬ ((1 : ℚ) / 2 ^ 126 ≤ |(0 : ℚ)|) := by norm_num
    simp only [parse_args_ok, is_normal, f32_min_normal, f32_max_finite]
    simp [h0]

/-- C4: the clearance is computed as the square root of
sheet_thickness squared minus xy squared; over the real idealization this
equals sqrt (max 0 (t*t - xy*xy)) for every xy (the square root of a
non-positive number is 0), so the clearance is a well-defined non-negative
number even when xy reaches or exceeds the thickness; moreover for every
offset actually enumerated in the sheet-thickness table the radicand is
non-negative, so the clamp never changes a value. The source itself writes
the radicand without a textual max. -/
theorem C4_clearance_radicand_nonneg (t p : ℝ) (ht : 0 ≤ t) (hp : 0 < p) :
    (∀ xy : ℝ, requiredZDiff t xy = Real.sqrt (max 0 (t * t - xy * xy)) ∧
      0 ≤ requiredZDiff t xy) ∧
    ∀ e ∈ neighborsList (t * p),
      0 ≤ t * t - e.2 / p * (e.2 / p) ∧
        requiredZDiff t (e.2 / p) =
          Real.sqrt (max 0 (t * t - e.2 / p * (e.2 / p))) := by
  have hgen : ∀ xy : ℝ, requiredZDiff t xy = Real.sqrt (max 0 (t * t - xy * xy)) ∧
      0 ≤ requiredZDiff t xy := by
    intro xy
    refine ⟨?_, requiredZDiff_nonneg t xy⟩
    rcases le_or_lt 0 (t * t - xy * xy) with hr | hr
    · rw [max_eq_right hr]
      rfl
    · rw [max_eq_left (le_of_lt hr), Real.sqrt_zero]
      exact Real.sqrt_eq_zero'.mpr (le_of_lt hr)
  refine ⟨hgen, ?_⟩
  intro e he
  have hr : 0 ≤ t * p := mul_nonneg ht (le_of_lt hp)
  have h2 := neighborsList_dist_le hr he
  have h0 := neighborsList_dist_nonneg hr he
  have hxy : e.2 / p ≤ t := by
    rw [div_le_iff₀ hp]
    exact h2
  have hxy0 : 0 ≤ e.2 / p := div_nonneg h0 (le_of_lt hp)
  have hrad : 0 ≤ t * t - e.2 / p * (e.2 / p) := by nlinarith
  exact ⟨hrad, (hgen _).1⟩

/-- Witness for C4 at thickness 1 and one pixel per mm. -/
theorem C4_clearance_radicand_nonneg_witness :
    (∀ xy : ℝ, requiredZDiff 1 xy = Real.sqrt (max 0 (1 * 1 - xy * xy)) ∧
      0 ≤ requiredZDiff 1 xy) ∧
    ∀ e ∈ neighborsList (1 * 1),
      0 ≤ 1 * 1 - e.2 / 1 * (e.2 / 1) ∧
        requiredZDiff 1 (e.2 / 1) =
          Real.sqrt (max 0 (1 * 1 - e.2 / 1 * (e.2 / 1))) :=
  C4_clearance_radicand_nonneg 1 1 (by norm_num) (by norm_num)

lemma mem_windowCells {w h cx cy m ox oy : ℕ} :
    (ox, oy) ∈ windowCells w h cx cy m ↔
      (cx - m ≤ ox ∧ ox < min (cx + m) w ∧ cy - m ≤ oy ∧ oy < min (cy + m) h) := by
  simp only [windowCells, List.mem_flatMap, List.mem_map, List.mem_range'_1, Prod.mk.injEq]
  constructor
  · rintro ⟨y0, ⟨hy1, hy2⟩, x0, ⟨hx1, hx2⟩, hxe, hye⟩
    subst hxe
    subst hye
    omega
  · rintro ⟨h1, h2, h3, h4⟩
    exact ⟨oy, by omega, ox, by omega, rfl, rfl⟩

lemma closestStep_eq_none_iff (img : Image) (cx cy : ℕ) (p : ℝ) (acc : Option ℝ)
    (cell : ℕ × ℕ) :
    closestStep img cx cy p acc cell = none ↔
      (acc = none ∧ img.pixel cell.1 cell.2 ≠ BLACK) := by
  unfold closestStep
  split
  · rename_i hb
    cases acc with
    | none => simp [hb]
    | some c => constructor <;> intro h <;> simp_all <;> split at h <;> simp_all
  · rename_i hb
    simp [hb]

lemma closestFold_none_iff (img : Image) (cx cy : ℕ) (p : ℝ) (cells : List (ℕ × ℕ)) :
    ∀ acc : Option ℝ,
      (cells.foldl (closestStep img cx cy p) acc = none ↔
        (acc = none ∧ ∀ cell ∈ cells, img.pixel cell.1 cell.2 ≠ BLACK)) := by
  induction cells with
  | nil => intro acc; simp
  | cons cell cells ih =>
    intro acc
    rw [List.foldl_cons, ih]
    rw [closestStep_eq_none_iff]
    constructor
    · rintro ⟨⟨h1, h2⟩, h3⟩
      exact ⟨h1, by
        intro c hc
        rcases List.mem_cons.mp hc with rfl | hc0
        · exact h2
        · exact h3 c hc0⟩
    · rintro ⟨h1, h2⟩
      exact ⟨⟨h1, h2 cell (List.mem_cons_self _ _)⟩,
        fun c hc => h2 c (List.mem_cons_of_mem _ hc)⟩

lemma closestStep_some (img : Image) (cx cy : ℕ) (p : ℝ) (c0 : ℝ) (cell : ℕ × ℕ) :
    closestStep img cx cy p (some c0) cell =
      if img.pixel cell.1 cell.2 = BLACK then
        (if distance_mm cx cy cell.1 cell.2 p < c0 then
          some (distance_mm cx cy cell.1 cell.2 p)
        else some c0)
      else some c0 := rfl

lemma closestStep_some_le (img : Image) (cx cy : ℕ) (p : ℝ) (c0 : ℝ) (cell : ℕ × ℕ)
    {v : ℝ} (h : closestStep img cx cy p (some c0) cell = some v) : v ≤ c0 := by
  rw [closestStep_some] at h
  split at h
  · split at h
    · cases h
      exact le_of_lt (by assumption)
    · cases h
      exact le_refl _
  · cases h
    exact le_refl _

lemma closestFold_some_le (img : Image) (cx cy : ℕ) (p : ℝ) (cells : List (ℕ × ℕ)) :
    ∀ (c0 d : ℝ),
      cells.foldl (closestStep img cx cy p) (some c0) = some d → d ≤ c0 := by
  induction cells with
  | nil =>
    intro c0 d h
    simp only [List.foldl_nil, Option.some.injEq] at h
    exact le_of_eq h.symm
  | cons cell cells ih =>
    intro c0 d h
    rw [List.foldl_cons] at h
    cases hstep : closestStep img cx cy p (some c0) cell with
    | none =>
      exact absurd hstep (by simp [closestStep_eq_none_iff])
    | some v =>
      rw [hstep] at h
      exact le_trans (ih v d h) (closestStep_some_le img cx cy p c0 cell hstep)

lemma closestStep_none_acc (img : Image) (cx cy : ℕ) (p : ℝ) (cell : ℕ × ℕ) :
    closestStep img cx cy p none cell =
      if img.pixel cell.1 cell.2 = BLACK then
        some (distance_mm cx cy cell.1 cell.2 p)
      else none := rfl

lemma closestFold_some_mem (img : Image) (cx cy : ℕ) (p : ℝ) (cells : List (ℕ × ℕ)) :
    ∀ (acc : Option ℝ) (d : ℝ),
      cells.foldl (closestStep img cx cy p) acc = some d →
        acc = some d ∨ ∃ cell ∈ cells, img.pixel cell.1 cell.2 = BLACK ∧
          distance_mm cx cy cell.1 cell.2 p = d := by
  induction cells with
  | nil => intro acc d h; exact Or.inl h
  | cons cell cells ih =>
    intro acc d h
    rw [List.foldl_cons] at h
    rcases ih (closestStep img cx cy p acc cell) d h with hstep | ⟨c1, hc1, hb1, hd1⟩
    · cases acc with
      | none =>
        rw [closestStep_none_acc] at hstep
        split at hstep
        · cases hstep
          exact Or.inr ⟨cell, List.mem_cons_self _ _, by assumption, rfl⟩
        · cases hstep
      | some c0 =>
        rw [closestStep_some] at hstep
        split at hstep
        · split at hstep
          · cases hstep
            exact Or.inr ⟨cell, List.mem_cons_self _ _, by assumption, rfl⟩
          · cases hstep
            exact Or.inl rfl
        · cases hstep
          exact Or.inl rfl
    · exact Or.inr ⟨c1, List.mem_cons_of_mem _ hc1, hb1, hd1⟩

lemma closestFold_some_lb (img : Image) (cx cy : ℕ) (p : ℝ) (cells : List (ℕ × ℕ)) :
    ∀ (acc : Option ℝ) (d : ℝ),
      cells.foldl (closestStep img cx cy p) acc = some d →
        ∀ cell ∈ cells, img.pixel cell.1 cell.2 = BLACK →
          d ≤ distance_mm cx cy cell.1 cell.2 p := by
  induction cells with
  | nil =>
    intro acc d h cell hc
    cases hc
  | cons cell0 cells ih =>
    intro acc d h cell hc hb
    rw [List.foldl_cons] at h
    rcases List.mem_cons.mp hc with rfl | hc0
    · cases acc with
      | none =>
        rw [closestStep_none_acc, if_pos hb] at h
        exact closestFold_some_le img cx cy p cells _ d h
      | some c0 =>
        have hv : ∃ v : ℝ, closestStep img cx cy p (some c0) cell =
            some v ∧ v ≤ distance_mm cx cy cell.1 cell.2 p := by
          rw [closestStep_some, if_pos hb]
          split
          · exact ⟨_, rfl, le_refl _⟩
          · exact ⟨c0, rfl, le_of_not_lt (by assumption)⟩
        obtain ⟨v, hv1, hv2⟩ := hv
        rw [hv1] at h
        exact le_trans (closestFold_some_le img cx cy p cells v d h) hv2
    · exact ih (closestStep img cx cy p acc cell0) d h cell hc0 hb

/-- C5 (with the corrected half-open window): closest_black_pixel returns
none exactly when no black pixel lies in the searched window, whose sides
run from the coordinate minus m (saturating at 0) up to but excluding
min (coordinate + m) (image side), with m the floor of
fade_distance * pixels_per_mm; and any returned distance is attained by a
black pixel of that window and is a lower bound of all black-pixel distances
in it, i.e. it is their minimum. -/
theorem C5_closest_black_pixel_minimum (image : Image) (cx cy : ℕ)
    (max_distance_mm pixels_per_mm : ℝ) :
    (closest_black_pixel image cx cy max_distance_mm pixels_per_mm = none ↔
      ∀ ox oy : ℕ,
        cx - ⌊max_distance_mm * pixels_per_mm⌋₊ ≤ ox →
        ox < min (cx + ⌊max_distance_mm * pixels_per_mm⌋₊) image.width →
        cy - ⌊max_distance_mm * pixels_per_mm⌋₊ ≤ oy →
        oy < min (cy + ⌊max_distance_mm * pixels_per_mm⌋₊) image.height →
        image.pixel ox oy ≠ BLACK) ∧
    (∀ d : ℝ, closest_black_pixel image cx cy max_distance_mm pixels_per_mm = some d →
      (∃ ox oy : ℕ,
        (cx - ⌊max_distance_mm * pixels_per_mm⌋₊ ≤ ox ∧
          ox < min (cx + ⌊max_distance_mm * pixels_per_mm⌋₊) image.width ∧
          cy - ⌊max_distance_mm * pixels_per_mm⌋₊ ≤ oy ∧
          oy < min (cy + ⌊max_distance_mm * pixels_per_mm⌋₊) image.height) ∧
        image.pixel ox oy = BLACK ∧ distance_mm cx cy ox oy pixels_per_mm = d) ∧
      (∀ ox oy : ℕ,
        cx - ⌊max_distance_mm * pixels_per_mm⌋₊ ≤ ox →
        ox < min (cx + ⌊max_distance_mm * pixels_per_mm⌋₊) image.width →
        cy - ⌊max_distance_mm * pixels_per_mm⌋₊ ≤ oy →
        oy < min (cy + ⌊max_distance_mm * pixels_per_mm⌋₊) image.height →
        image.pixel ox oy = BLACK →
        d ≤ distance_mm cx cy ox oy pixels_per_mm)) := by
  constructor
  · rw [closest_black_pixel, closestFold_none_iff]
    constructor
    · rintro ⟨-, hall⟩ ox oy h1 h2 h3 h4
      exact hall (ox, oy) (mem_windowCells.mpr ⟨h1, h2, h3, h4⟩)
    · intro hall
      refine ⟨rfl, ?_⟩
      rintro ⟨ox, oy⟩ hc
      obtain ⟨h1, h2, h3, h4⟩ := mem_windowCells.mp hc
      exact hall ox oy h1 h2 h3 h4
  · intro d hd
    rw [closest_black_pixel] at hd
    constructor
    · rcases closestFold_some_mem image cx cy pixels_per_mm _ none d hd with h | h
      · cases h
      · obtain ⟨⟨ox, oy⟩, hc, hb, hdist⟩ := h
        obtain ⟨h1, h2, h3, h4⟩ := mem_windowCells.mp hc
        exact ⟨ox, oy, ⟨h1, h2, h3, h4⟩, hb, hdist⟩
    · intro ox oy h1 h2 h3 h4 hb
      exact closestFold_some_lb image cx cy pixels_per_mm _ none d hd (ox, oy)
        (mem_windowCells.mpr ⟨h1, h2, h3, h4⟩) hb

/-- Counterexample to C5 as stated: with fade distance 1 and one pixel per
mm the claimed symmetric window around (0,0) in the 2 by 1 image has radius
floor(1*1) = 1 and thus contains the black pixel at (1,0) (offset magnitude
1, inside the grid), yet closest_black_pixel returns none: the searched
window is half-open and never reaches offset +m. -/
theorem C5_window_counterexample :
    closest_black_pixel edgeImage 0 0 1 1 = none ∧
      edgeImage.pixel 1 0 = BLACK ∧ 1 < edgeImage.width ∧ 0 < edgeImage.height ∧
      ⌊(1 : ℝ) * 1⌋₊ = 1 := by
  refine ⟨?_, rfl, by norm_num [edgeImage], by norm_num [edgeImage], by norm_num⟩
  norm_num [closest_black_pixel, windowCells, closestStep, edgeImage,
    List.range'_one, BLACK, MAX_SAMPLE]
